import Mathlib

/-!
Verification of the used-cars dashboard (`app.py`) against its specification.

The script is embedded shallowly: a pandas `DataFrame` becomes a `Table`
(header names plus rows of cells), float cells become exact rationals
(`ℚ`) with `Val.na` standing for NaN, and each line-numbered fragment of
`app.py` becomes a Lean definition carrying the corresponding line numbers
in its doc comment.  File and widget I/O are outside the embedding; the
value read from a widget becomes a parameter of the corresponding
definition, and `runApp` models one top-to-bottom execution of the script
with every widget at its initial default.
-/

namespace UsedCars

/-- Cell value of a loaded table: missing (pandas NaN), numeric
(float cells, modelled exactly by a rational), or string (object cells). -/
inductive Val where
  | na : Val
  | num : ℚ → Val
  | str : String → Val
deriving DecidableEq

/-- Tabular data, modelling a `pandas.DataFrame`: header names and rows of
cells.  Raw tables produced by `pd.read_csv` contain only `na` and `str`
cells; `load_data` coerces the three numeric columns. -/
structure Table where
  cols : List String
  rows : List (List Val)
deriving DecidableEq

/-- Python `c.strip()` on a list of characters: drop leading and trailing
whitespace (app.py line 24). -/
def stripChars (cs : List Char) : List Char :=
  ((cs.dropWhile Char.isWhitespace).reverse.dropWhile Char.isWhitespace).reverse

/-- Python .replace(" ", "_") applied characterwise, as it acts for a
one-character pattern (app.py line 24). -/
def underscoreSpace (c : Char) : Char := if c = ' ' then '_' else c

/-- Header normalization of app.py line 24:
the Python expression is c.strip().lower().replace(" ", "_"); case mapping
is modelled on ASCII, which covers every header the script touches. -/
def normalizeName (s : String) : String :=
  String.mk (((stripChars s.data).map Char.toLower).map underscoreSpace)

/-- Discriminator for string cells. -/
def isStrVal : Val → Bool
  | .str _ => true
  | _ => false

/-- Splits a character list at every occurrence of `sep`; the separators are
dropped and the chunks kept (so `n` separators yield `n + 1` chunks). -/
def splitOnChar (sep : Char) : List Char → List (List Char)
  | [] => [[]]
  | c :: cs =>
    match splitOnChar sep cs with
    | [] => [[]]
    | h :: t => if c = sep then [] :: h :: t else (c :: h) :: t

/-- Numeric value of a decimal digit character. -/
def digitVal (c : Char) : Nat := c.toNat - 48

/-- Raw positional value of a digit string (no validity checking). -/
def parseNatRaw (cs : List Char) : Nat :=
  cs.foldl (fun a c => a * 10 + digitVal c) 0

/-- Numeric parsing of one cell, as performed by
pd.to_numeric(..., errors="coerce") (app.py line 28): an optional sign, an
integer part and an optional fraction part; anything else is unparsable. -/
def parseNumL (cs : List Char) : Option ℚ :=
  let neg : Bool := cs.head? = some '-'
  let body := if neg then cs.tail else cs
  let sgn : ℤ := if neg then -1 else 1
  match splitOnChar '.' body with
  | [ip] =>
      if ip ≠ [] ∧ ip.all Char.isDigit then
        some (mkRat (sgn * (parseNatRaw ip : ℤ)) 1)
      else none
  | [ip, fp] =>
      if (ip ≠ [] ∨ fp ≠ []) ∧ ip.all Char.isDigit ∧ fp.all Char.isDigit then
        some (mkRat (sgn * ((parseNatRaw ip * 10 ^ fp.length + parseNatRaw fp : ℕ) : ℤ))
          (10 ^ fp.length))
      else none
  | _ => none

/-- String-level entry point of the cell parser. -/
def parseNum (s : String) : Option ℚ := parseNumL s.data

/-- Coercion of a single cell by `pd.to_numeric(..., errors="coerce")`
(app.py lines 26-28): numeric and missing cells are unchanged, string cells
parse to a number or become missing. -/
def toNumericVal : Val → Val
  | .na => .na
  | .num q => .num q
  | .str s =>
    match parseNum s with
    | some q => .num q
    | none => .na

/-- The three columns coerced by app.py lines 26-28. -/
def numericCols : List String := ["price", "odometer", "model_year"]

/-- Row-wise application of the coercion loop of app.py lines 26-28: every
cell sitting under one of the three numeric headers is coerced. -/
def coerceRow (cols : List String) (r : List Val) : List Val :=
  List.zipWith (fun c v => if c ∈ numericCols then toNumericVal v else v) cols r

/-- Worker for `df.drop_duplicates()` (app.py line 30): keep the first
occurrence of each element, `seen` accumulating the elements already kept. -/
def dedupAux {α : Type} [DecidableEq α] (seen : List α) : List α → List α
  | [] => []
  | x :: xs => if x ∈ seen then dedupAux seen xs else x :: dedupAux (x :: seen) xs

/-- First-occurrence duplicate removal, as `df.drop_duplicates()` performs
(pandas treats NaN cells as equal to each other when deduplicating, matching
structural equality of `Val`). -/
def dedupFirst {α : Type} [DecidableEq α] (l : List α) : List α := dedupAux [] l

/-- The body of `load_data` (app.py lines 20-31) after `pd.read_csv` has
produced a raw table: normalize the headers, coerce the price, odometer and
model_year columns, and drop duplicate rows.  The `st.cache_data` decorator
and the file read itself are outside the embedding. -/
def load_data (t : Table) : Table :=
  let cols := t.cols.map normalizeName
  Table.mk cols (dedupFirst (t.rows.map (coerceRow cols)))

/-- Cell access `row[c]` through the header list, pairing headers and cells
positionally; a header without a matching cell, or an absent header, reads
as missing.  (The access paths of the script that raise `KeyError` on an
absent column are modelled separately in `runApp`.) -/
def getVal (cols : List String) (r : List Val) (c : String) : Val :=
  match cols, r with
  | [], _ => .na
  | _ :: _, [] => .na
  | c0 :: cs, v :: vs => if c0 = c then v else getVal cs vs c

/-- The values of column `c`, one per row (`data[c]`). -/
def colVals (t : Table) (c : String) : List Val :=
  t.rows.map (fun r => getVal t.cols r c)

/-- Series method `.dropna()`: the non-missing values of a column. -/
def dropNa (vs : List Val) : List Val := vs.filter (fun v => v ≠ Val.na)

/-- The rational payloads of a column's numeric cells; pandas reductions
(min, max, quantile, mean, median) all skip NaN, so they operate on exactly
this list. -/
def numsOf (vs : List Val) : List ℚ :=
  vs.filterMap (fun v => match v with | .num q => some q | _ => none)

/-- NaN-skipping fold for `Series.min()`: `none` models the NaN result on an
all-missing column. -/
def foldMin? {α : Type} [Min α] : List α → Option α
  | [] => none
  | x :: xs =>
    match foldMin? xs with
    | none => some x
    | some m => some (min x m)

/-- NaN-skipping fold for `Series.max()`. -/
def foldMax? {α : Type} [Max α] : List α → Option α
  | [] => none
  | x :: xs =>
    match foldMax? xs with
    | none => some x
    | some m => some (max x m)

/-- Ordering used to model Python `sorted` over the values of a categorical
column (app.py lines 49-50); on the string values the script actually sorts
it is the lexicographic string order. -/
def valLe (a b : Val) : Bool :=
  match a, b with
  | .na, _ => true
  | _, .na => false
  | .num p, .num q => decide (p ≤ q)
  | .num _, .str _ => true
  | .str _, .num _ => false
  | .str s, .str u => !decide (u < s)

/-- Propositional form of `valLe`, for `List.insertionSort`. -/
def valLeP (a b : Val) : Prop := valLe a b = true

instance : DecidableRel valLeP :=
  fun a b => inferInstanceAs (Decidable (valLe a b = true))

/-- Option list of a categorical filter widget (app.py lines 49-50):
`sorted(data.get(c, pd.Series()).dropna().unique())`.  A wholly absent
column reads as all-missing, so its option list is empty, matching the
`pd.Series()` fallback. -/
def availableVals (t : Table) (c : String) : List Val :=
  List.insertionSort valLeP (dedupFirst (dropNa (colVals t c)))

/-- Series method `.quantile(0.99)` with pandas' default linear
interpolation, in exact rational arithmetic: with `s` the sorted non-missing
values and `h = (n - 1) * 0.99`, the result interpolates between the entries
at positions `⌊h⌋` and `⌊h⌋ + 1`. -/
def quantile99 (l : List ℚ) : Option ℚ :=
  let s := List.insertionSort (· ≤ ·) l
  if s.isEmpty then none
  else
    let h : ℚ := ((s.length - 1 : ℕ) : ℚ) * (99 / 100)
    let i : ℕ := (⌊h⌋).toNat
    let xi := s.getD i 0
    let xi1 := s.getD (i + 1) xi
    some (xi + (h - (i : ℚ)) * (xi1 - xi))

/-- The upper slider bound of app.py lines 52 and 55:
series.clip(upper=series.quantile(0.99)).max(), i.e. cap every value at the
99th percentile and take the maximum of the result. -/
def clippedMax (l : List ℚ) : Option ℚ :=
  match quantile99 l with
  | none => foldMax? l
  | some q => foldMax? (l.map (fun v => min v q))

/-- Lower price-slider bound, app.py line 52: `data["price"].min()`. -/
def min_price (t : Table) : Option ℚ := foldMin? (numsOf (colVals t "price"))

/-- Upper price-slider bound, app.py line 52. -/
def max_price (t : Table) : Option ℚ := clippedMax (numsOf (colVals t "price"))

/-- Lower odometer-slider bound, app.py line 55: `data["odometer"].min()`. -/
def min_odo (t : Table) : Option ℚ := foldMin? (numsOf (colVals t "odometer"))

/-- Upper odometer-slider bound, app.py line 55. -/
def max_odo (t : Table) : Option ℚ := clippedMax (numsOf (colVals t "odometer"))

/-- Method `Series.between(lo, hi, inclusive="both")` on one cell: a numeric
cell compares inclusively, a missing (or non-numeric) cell compares false,
as NaN does under every float comparison. -/
def betweenVal (v : Val) (lo hi : ℚ) : Bool :=
  match v with
  | .num q => decide (lo ≤ q) && decide (q ≤ hi)
  | _ => false

/-- Manufacturer filter of app.py lines 69-70: applied only when the
selection is nonempty (Python list truthiness). -/
def manuFilter (sel : List Val) (t : Table) : Table :=
  if sel.isEmpty then t
  else Table.mk t.cols (t.rows.filter (fun r => decide (getVal t.cols r "manufacturer" ∈ sel)))

/-- Vehicle-type filter of app.py lines 71-72: applied only when the
selection is nonempty. -/
def typeFilter (sel : List Val) (t : Table) : Table :=
  if sel.isEmpty then t
  else Table.mk t.cols (t.rows.filter (fun r => decide (getVal t.cols r "type" ∈ sel)))

/-- Conjunctive price/odometer range mask of app.py lines 73-74. -/
def rangeFilter (plo phi olo ohi : ℚ) (t : Table) : Table :=
  Table.mk t.cols (t.rows.filter (fun r =>
    betweenVal (getVal t.cols r "price") plo phi &&
    betweenVal (getVal t.cols r "odometer") olo ohi))

/-- Model-year range mask of app.py lines 75-76, applied only when the
column exists. -/
def yearFilter (ylo yhi : ℚ) (t : Table) : Table :=
  if "model_year" ∈ t.cols then
    Table.mk t.cols (t.rows.filter (fun r => betweenVal (getVal t.cols r "model_year") ylo yhi))
  else t

/-- The full filter pipeline of app.py lines 68-76 producing the filtered
view `df` from the loaded table and the widget selections. -/
def filteredView (manu_sel type_sel : List Val) (plo phi olo ohi ylo yhi : ℚ)
    (t : Table) : Table :=
  yearFilter ylo yhi (rangeFilter plo phi olo ohi (typeFilter type_sel (manuFilter manu_sel t)))

/-- Truncation toward zero, as Python `astype(int)` converts floats. -/
def truncQ (q : ℚ) : ℤ := Int.tdiv q.num (q.den : ℤ)

/-- Year-slider bounds of app.py lines 58-59: the min and max of the
non-missing model years cast to int, or the fallback pair (2000, 2024) when
the column is absent or empty. -/
def yearBounds (t : Table) : ℚ × ℚ :=
  let ys : List ℤ :=
    if "model_year" ∈ t.cols then (numsOf (colVals t "model_year")).map truncQ else []
  match foldMin? ys, foldMax? ys with
  | some a, some b => ((a : ℚ), (b : ℚ))
  | _, _ => (2000, 2024)

/-- Series method `.mean()` over the non-missing values (none on an empty
column, where pandas produces NaN). -/
def meanQ (l : List ℚ) : Option ℚ :=
  match l with
  | [] => none
  | _ => some (l.sum / (l.length : ℚ))

/-- Series method `.median()`: middle element of the sorted values, or the
average of the two middle elements for an even count. -/
def medianQ (l : List ℚ) : Option ℚ :=
  let s := List.insertionSort (· ≤ ·) l
  let n := s.length
  if n = 0 then none
  else if n % 2 = 1 then some (s.getD (n / 2) 0)
  else some ((s.getD (n / 2 - 1) 0 + s.getD (n / 2) 0) / 2)

/-- The double-quote character, written numerically so character literals in
this file stay unambiguous. -/
def quoteChar : Char := Char.ofNat 34

/-- Decimal digit character for a digit value below ten. -/
def digitChar10 (d : ℕ) : Char := Char.ofNat (48 + d)

/-- Digit characters of a positive natural number, big-endian; the first
argument is structural recursion fuel, and the number itself always
suffices since `n / 10 < n` for positive `n`. -/
def natCharsAux : ℕ → ℕ → List Char
  | _, 0 => []
  | 0, _ => []
  | fuel + 1, n + 1 =>
    natCharsAux fuel ((n + 1) / 10) ++ [digitChar10 ((n + 1) % 10)]

/-- Decimal rendering of a natural number (big-endian digit characters). -/
def natChars (n : ℕ) : List Char :=
  if n = 0 then ['0'] else natCharsAux n n

/-- Digits of the fractional expansion of `r / den` (with `r < den`),
truncated at `fuel` places, trailing the decimal point; pandas prints floats
with finitely many decimal places, which this truncation mirrors. -/
def fracDigits : ℕ → ℕ → ℕ → List Char
  | _, 0, _ => []
  | 0, _, _ => []
  | fuel + 1, r, den => digitChar10 ((10 * r) / den) :: fracDigits fuel ((10 * r) % den) den

/-- Quote doubling inside a quoted CSV field: a double quote is written
twice, any other character as itself. -/
def dupQuote (c : Char) : List Char :=
  if c = quoteChar then [quoteChar, quoteChar] else [c]

/-- CSV field quoting, as `to_csv` applies it: a field containing a comma, a
double quote or a newline is wrapped in double quotes with inner quotes
doubled; any other field is written verbatim. -/
def escapeField (cs : List Char) : List Char :=
  if cs.any (fun c => c == ',' || c == quoteChar || c == '\n') then
    quoteChar :: (cs.map dupQuote).flatten ++ [quoteChar]
  else cs

/-- Raw text of one cell as `df.to_csv` (app.py line 139) writes it, before
CSV quoting: NaN prints as an empty field, a float as sign, integer part,
decimal point and fraction digits (an integral float prints with a trailing
zero, as `5000.0`), and a string verbatim. -/
def renderVal : Val → List Char
  | .na => []
  | .num q =>
    let n := q.num.natAbs
    let ip := natChars (n / q.den)
    let fr := fracDigits 40 (n % q.den) q.den
    (if q.num < 0 then ['-'] else []) ++ ip ++ '.' :: (if fr.isEmpty then ['0'] else fr)
  | .str s => s.data

/-- Interleaves a separator character between chunks (no trailing
separator). -/
def joinSepC (sep : Char) : List (List Char) → List Char
  | [] => []
  | [p] => p
  | p :: q :: ps => p ++ sep :: joinSepC sep (q :: ps)

/-- One data line of the CSV serialization: the rendered cells of a row,
each quoted when it needs to be, comma-separated. -/
def renderRow (r : List Val) : List Char :=
  joinSepC ',' (r.map (fun v => escapeField (renderVal v)))

/-- The header line of the CSV serialization. -/
def headerLine (cols : List String) : List Char :=
  joinSepC ',' (cols.map (fun c => escapeField c.data))

/-- The download payload of app.py line 139, `df.to_csv(index=False)`:
header line then one line per row, each line newline-terminated.  The
`.encode("utf-8")` step is the identity at this level of modelling. -/
def csvEncode (t : Table) : List Char :=
  List.flatten ((headerLine t.cols :: t.rows.map renderRow).map (fun l => l ++ ['\n']))

/-- Prepends a character to the first chunk of a chunk list. -/
def consHead (c : Char) : List (List Char) → List (List Char)
  | [] => [[c]]
  | h :: t => (c :: h) :: t

/-- Quote-aware CSV field splitting, as a CSV reader performs it: a
separator inside a double-quoted region does not split; the quote
characters themselves are kept in the chunk (removed later by
`unquoteField`).  The Boolean argument tracks whether the scan is inside a
quoted region. -/
def splitQAux (sep : Char) : Bool → List Char → List (List Char)
  | _, [] => [[]]
  | inQ, c :: cs =>
    if c = quoteChar then consHead c (splitQAux sep (!inQ) cs)
    else if c = sep then
      if inQ then consHead c (splitQAux sep inQ cs)
      else [] :: splitQAux sep inQ cs
    else consHead c (splitQAux sep inQ cs)

/-- The uncaught exceptions the script can raise past loading: a pandas
column access `data[c]` on an absent column. -/
inductive AppError where
  | keyError : String → AppError
deriving DecidableEq

/-- What a chart tab displays: a plotly chart (whose graphical content is
outside the embedding) or an `st.info` message. -/
inductive Render where
  | chart : Render
  | infoMsg : String → Render
deriving DecidableEq

/-- Observable outcome of one script run: the four KPI metrics (a `none`
metric renders as "N/A"), the three tab contents, the preview table and the
download payload. -/
structure Output where
  nRows : ℕ
  meanPrice : Option ℚ
  medianPrice : Option ℚ
  meanOdo : Option ℚ
  tab1 : Render
  tab2 : Render
  tab3 : Render
  preview : Table
  download : List Char
deriving DecidableEq

/-- One top-to-bottom run of app.py (lines 38-140) on a loaded input table,
with every widget at its initial default: sliders spanning their full
derived ranges, the manufacturer selection at its first five options, the
type selection at all options.  `Except.error` models an exception
propagating out of the script: `data["price"]` at line 52 and
`data["odometer"]` at line 55 raise `KeyError` when the column is absent,
before any chart guard can run. -/
def runApp (raw : Table) : Except AppError Output :=
  let data := load_data raw
  let manufacturers := availableVals data "manufacturer"
  let types := availableVals data "type"
  if "price" ∉ data.cols then Except.error (AppError.keyError "price")
  else
    let priceVals := numsOf (colVals data "price")
    if "odometer" ∉ data.cols then Except.error (AppError.keyError "odometer")
    else
      let odoVals := numsOf (colVals data "odometer")
      let yb := yearBounds data
      let manu_sel := manufacturers.take 5
      let type_sel := types
      let df :=
        match foldMin? priceVals, clippedMax priceVals, foldMin? odoVals, clippedMax odoVals with
        | some plo, some phi, some olo, some ohi =>
          filteredView manu_sel type_sel plo phi olo ohi yb.1 yb.2 data
        | _, _, _, _ => Table.mk data.cols []
      Except.ok (Output.mk
        df.rows.length
        (if "price" ∈ df.cols then meanQ (numsOf (colVals df "price")) else none)
        (if "price" ∈ df.cols then medianQ (numsOf (colVals df "price")) else none)
        (if "odometer" ∈ df.cols then meanQ (numsOf (colVals df "odometer")) else none)
        (if "odometer" ∈ df.cols ∧ "price" ∈ df.cols then Render.chart
         else Render.infoMsg "Faltan columnas odometer y/o price para esta vista.")
        (if "price" ∈ df.cols ∧ "manufacturer" ∈ df.cols then Render.chart
         else Render.infoMsg "Faltan columnas manufacturer y/o price para esta vista.")
        (if "model" ∈ df.cols then Render.chart
         else Render.infoMsg "No se encontro la columna model.")
        (Table.mk df.cols (df.rows.take 1000))
        (csvEncode df))

/-! Concrete tables used to instantiate the theorems below. -/

/-- A small loaded listing table with price and odometer columns; its second
row has a missing price. -/
def exA : Table :=
  Table.mk ["price", "odometer"]
    [[Val.num 5, Val.num 10], [Val.na, Val.num 3]]

/-- A raw CSV table that has a `price` column but lacks `odometer`. -/
def exB : Table :=
  Table.mk ["price", "manufacturer"]
    [[Val.str "1000", Val.str "ford"], [Val.str "2000", Val.str "bmw"]]

/-- A raw CSV table whose columns are a subset of the expected ones but lack
`price` (and `odometer`). -/
def exC : Table :=
  Table.mk ["manufacturer", "model"]
    [[Val.str "ford", Val.str "f150"]]

/-- A listing table whose second row has a missing manufacturer but valid
price, odometer and model year. -/
def exD : Table :=
  Table.mk ["manufacturer", "type", "price", "odometer", "model_year"]
    [[Val.str "ford", Val.str "sedan", Val.num 5000, Val.num 1000, Val.num 2015],
     [Val.na, Val.str "sedan", Val.num 6000, Val.num 2000, Val.num 2016]]

/-- A raw table exercising every normalization step of `load_data`. -/
def exF : Table :=
  Table.mk ["Price", " Model Year", "manufacturer"]
    [[Val.str "5000", Val.str "2015", Val.str "ford"],
     [Val.str "abc", Val.str "2016.0", Val.str "bmw"],
     [Val.str "5000", Val.str "2015", Val.str "ford"]]

/-! Theorems. -/

theorem cols_manuFilter (sel : List Val) (t : Table) : (manuFilter sel t).cols = t.cols := by
  unfold manuFilter; split <;> rfl

theorem cols_typeFilter (sel : List Val) (t : Table) : (typeFilter sel t).cols = t.cols := by
  unfold typeFilter; split <;> rfl

theorem cols_rangeFilter (plo phi olo ohi : ℚ) (t : Table) :
    (rangeFilter plo phi olo ohi t).cols = t.cols := rfl

theorem cols_yearFilter (ylo yhi : ℚ) (t : Table) : (yearFilter ylo yhi t).cols = t.cols := by
  unfold yearFilter; split <;> rfl

theorem mem_of_mem_yearFilter (ylo yhi : ℚ) (t : Table) (row : List Val)
    (h : row ∈ (yearFilter ylo yhi t).rows) : row ∈ t.rows := by
  unfold yearFilter at h
  split at h
  · exact List.mem_of_mem_filter h
  · exact h

theorem of_mem_rangeFilter (plo phi olo ohi : ℚ) (t : Table) (row : List Val)
    (h : row ∈ (rangeFilter plo phi olo ohi t).rows) :
    row ∈ t.rows ∧
      betweenVal (getVal t.cols row "price") plo phi = true ∧
      betweenVal (getVal t.cols row "odometer") olo ohi = true := by
  unfold rangeFilter at h
  have h' := List.mem_filter.mp h
  exact ⟨h'.1, (Bool.and_eq_true _ _).mp h'.2⟩

theorem mem_of_mem_typeFilter (sel : List Val) (t : Table) (row : List Val)
    (h : row ∈ (typeFilter sel t).rows) : row ∈ t.rows := by
  unfold typeFilter at h
  split at h
  · exact h
  · exact List.mem_of_mem_filter h

theorem mem_of_mem_manuFilter (sel : List Val) (t : Table) (row : List Val)
    (h : row ∈ (manuFilter sel t).rows) : row ∈ t.rows := by
  unfold manuFilter at h
  split at h
  · exact h
  · exact List.mem_of_mem_filter h

/-- Any member of the filtered view passed both numeric range masks of
app.py lines 73-74 (and was a row of the input table). -/
theorem between_of_mem_filteredView (ms ts : List Val) (plo phi olo ohi ylo yhi : ℚ)
    (t : Table) (row : List Val)
    (h : row ∈ (filteredView ms ts plo phi olo ohi ylo yhi t).rows) :
    row ∈ t.rows ∧
      betweenVal (getVal t.cols row "price") plo phi = true ∧
      betweenVal (getVal t.cols row "odometer") olo ohi = true := by
  unfold filteredView at h
  have h3 := mem_of_mem_yearFilter _ _ _ _ h
  have h4 := of_mem_rangeFilter _ _ _ _ _ _ h3
  rw [cols_typeFilter, cols_manuFilter] at h4
  exact ⟨mem_of_mem_manuFilter _ _ _ (mem_of_mem_typeFilter _ _ _ h4.1), h4.2.1, h4.2.2⟩

theorem betweenVal_num (v : Val) (lo hi : ℚ) (h : betweenVal v lo hi = true) :
    ∃ q, v = Val.num q ∧ lo ≤ q ∧ q ≤ hi := by
  cases v with
  | na => simp [betweenVal] at h
  | num q =>
    refine ⟨q, rfl, ?_, ?_⟩ <;> simp [betweenVal] at h
    · exact h.1
    · exact h.2
  | str s => simp [betweenVal] at h

/-- C1: for every listing table and every selected price range and odometer
range, every row of the filtered view produced by the filter engine has a
price within the selected price range and an odometer value within the
selected odometer range, both ranges inclusive of their endpoints. -/
theorem c1_filtered_rows_within_ranges (ms ts : List Val) (plo phi olo ohi ylo yhi : ℚ)
    (t : Table) (row : List Val)
    (h : row ∈ (filteredView ms ts plo phi olo ohi ylo yhi t).rows) :
    (∃ p, getVal t.cols row "price" = Val.num p ∧ plo ≤ p ∧ p ≤ phi) ∧
    (∃ o, getVal t.cols row "odometer" = Val.num o ∧ olo ≤ o ∧ o ≤ ohi) := by
  obtain ⟨-, hp, ho⟩ := between_of_mem_filteredView ms ts plo phi olo ohi ylo yhi t row h
  exact ⟨betweenVal_num _ _ _ hp, betweenVal_num _ _ _ ho⟩

/-- Witness for C1 at a concrete table, row and bounds. -/
theorem c1_witness :
    [Val.num 5, Val.num 10] ∈ (filteredView [] [] 0 100 0 100 0 3000 exA).rows ∧
    ((∃ p, getVal exA.cols [Val.num 5, Val.num 10] "price" = Val.num p ∧ 0 ≤ p ∧ p ≤ 100) ∧
     (∃ o, getVal exA.cols [Val.num 5, Val.num 10] "odometer" = Val.num o ∧ 0 ≤ o ∧ o ≤ 100)) :=
  ⟨by decide, c1_filtered_rows_within_ranges [] [] 0 100 0 100 0 3000 exA
    [Val.num 5, Val.num 10] (by decide)⟩

/-- C9: a row whose price or odometer is missing is excluded from the
filtered view under every selection of bounds, because `between` masks
compare NaN as false (app.py lines 73-74). -/
theorem c9_missing_price_or_odo_excluded (ms ts : List Val) (plo phi olo ohi ylo yhi : ℚ)
    (t : Table) (row : List Val) (_hrow : row ∈ t.rows)
    (hna : getVal t.cols row "price" = Val.na ∨ getVal t.cols row "odometer" = Val.na) :
    row ∉ (filteredView ms ts plo phi olo ohi ylo yhi t).rows := by
  intro h
  obtain ⟨-, hp, ho⟩ := between_of_mem_filteredView ms ts plo phi olo ohi ylo yhi t row h
  rcases hna with h1 | h1
  · rw [h1] at hp; simp [betweenVal] at hp
  · rw [h1] at ho; simp [betweenVal] at ho

/-- Witness for C9: the row of `exA` with a missing price is excluded even
though the selected ranges span all observed values. -/
theorem c9_witness :
    [Val.na, Val.num 3] ∈ exA.rows ∧
    (getVal exA.cols [Val.na, Val.num 3] "price" = Val.na ∨
     getVal exA.cols [Val.na, Val.num 3] "odometer" = Val.na) ∧
    [Val.na, Val.num 3] ∉ (filteredView [] [] 0 100 0 100 0 3000 exA).rows :=
  ⟨by decide, by decide,
    c9_missing_price_or_odo_excluded [] [] 0 100 0 100 0 3000 exA
      [Val.na, Val.num 3] (by decide) (by decide)⟩

/-- C10: an empty manufacturer selection leaves the table untouched (the
guard `if manu_sel:` of app.py line 69 skips the predicate), likewise an
empty type selection, and with both selections empty the filtered view is
exactly the range- and year-filtered data, so an empty selection never
empties the view by itself. -/
theorem c10_empty_selection_not_applied (t : Table) (plo phi olo ohi ylo yhi : ℚ) :
    manuFilter [] t = t ∧ typeFilter [] t = t ∧
    filteredView [] [] plo phi olo ohi ylo yhi t =
      yearFilter ylo yhi (rangeFilter plo phi olo ohi t) :=
  ⟨rfl, rfl, rfl⟩

/-- C2 evaluation: on a CSV that has a price column but lacks `odometer`,
the script raises `KeyError` at the odometer slider derivation (app.py
line 55), so control never reaches the scatter-tab guard of lines 100-111
and no informational message is rendered. -/
theorem c2_missing_odometer_raises :
    runApp exB = Except.error (AppError.keyError "odometer") := rfl

/-- C3 evaluation: on a CSV whose columns are a subset of the expected ones
but lack `price`, the script raises `KeyError` at the price slider
derivation (app.py line 52) instead of substituting a placeholder, so the
missing data file is not the only user-visible failure. -/
theorem c3_missing_price_raises :
    runApp exC = Except.error (AppError.keyError "price") := rfl

theorem char_toNat_inj {a b : Char} (h : a.toNat = b.toNat) : a = b :=
  Char.eq_of_val_eq (UInt32.ext h)

theorem char_toNat_ofNat (m : ℕ) (h : m < 55296) : (Char.ofNat m).toNat = m := by
  unfold Char.ofNat
  rw [dif_pos (Or.inl h : m.isValidChar)]
  rfl

theorem toNat_toLower (c : Char) :
    c.toLower.toNat = if 65 ≤ c.toNat ∧ c.toNat ≤ 90 then c.toNat + 32 else c.toNat := by
  unfold Char.toLower
  split
  next h => rw [if_pos ⟨h.1, h.2⟩]; exact char_toNat_ofNat _ (by omega)
  next h => rw [if_neg (fun hc => h ⟨hc.1, hc.2⟩)]

theorem toLower_toLower (c : Char) : c.toLower.toLower = c.toLower := by
  apply char_toNat_inj
  rw [toNat_toLower, toNat_toLower c]
  split_ifs <;> omega

theorem isUpper_iff (c : Char) : c.isUpper = true ↔ 65 ≤ c.toNat ∧ c.toNat ≤ 90 := by
  simp [Char.isUpper, UInt32.le_def, BitVec.le_def]
  exact Iff.rfl

theorem isUpper_toLower (c : Char) : c.toLower.isUpper = false := by
  rw [Bool.eq_false_iff]
  intro hu
  have h2 := (isUpper_iff _).mp hu
  rw [toNat_toLower] at h2
  revert h2
  split <;> omega

theorem isWhitespace_iff (c : Char) :
    c.isWhitespace = true ↔ (c.toNat = 32 ∨ c.toNat = 9 ∨ c.toNat = 13 ∨ c.toNat = 10) := by
  simp only [Char.isWhitespace, Bool.or_eq_true, decide_eq_true_eq]
  constructor
  · rintro (((rfl | rfl) | rfl) | rfl) <;> decide
  · rintro (h | h | h | h)
    · exact Or.inl (Or.inl (Or.inl (char_toNat_inj h)))
    · exact Or.inl (Or.inl (Or.inr (char_toNat_inj h)))
    · exact Or.inl (Or.inr (char_toNat_inj h))
    · exact Or.inr (char_toNat_inj h)

theorem isWhitespace_toLower (c : Char) (h : c.isWhitespace = false) :
    c.toLower.isWhitespace = false := by
  rw [Bool.eq_false_iff] at h ⊢
  intro hw
  apply h
  rw [isWhitespace_iff] at hw ⊢
  rw [toNat_toLower] at hw
  revert hw
  split <;> omega

theorem dropWhile_eq_self_of_head (p : Char → Bool) (l : List Char)
    (h : ∀ c, l.head? = some c → p c = false) : l.dropWhile p = l := by
  cases l with
  | nil => rfl
  | cons a t =>
    rw [List.dropWhile_cons, if_neg]
    rw [h a rfl]
    simp

theorem head_dropWhile_false (p : Char → Bool) (l : List Char) (c : Char)
    (h : (l.dropWhile p).head? = some c) : p c = false := by
  induction l with
  | nil => simp at h
  | cons a t ih =>
    rw [List.dropWhile_cons] at h
    by_cases hp : p a = true
    · rw [if_pos hp] at h; exact ih h
    · rw [if_neg hp] at h
      simp at h
      rw [← h]
      simpa using hp

theorem head_eq_of_pref (l₁ l₂ : List Char) (h : l₁ <+: l₂) (hne : l₁ ≠ []) :
    l₁.head? = l₂.head? := by
  obtain ⟨t, rfl⟩ := h
  cases l₁ with
  | nil => exact absurd rfl hne
  | cons a s => rfl

theorem stripChars_head (cs : List Char) (c : Char)
    (h : (stripChars cs).head? = some c) : Char.isWhitespace c = false := by
  unfold stripChars at h
  set X := cs.dropWhile Char.isWhitespace with hX
  set B := X.reverse.dropWhile Char.isWhitespace with hB
  have hsuff : B <:+ X.reverse := List.dropWhile_suffix _
  have hpre : B.reverse <+: X := by
    apply List.reverse_suffix.mp
    rw [List.reverse_reverse]
    exact hsuff
  by_cases hBe : B.reverse = []
  · rw [hBe] at h; simp at h
  · rw [head_eq_of_pref _ _ hpre hBe] at h
    exact head_dropWhile_false _ _ _ h

theorem stripChars_getLast (cs : List Char) (c : Char)
    (h : (stripChars cs).getLast? = some c) : Char.isWhitespace c = false := by
  unfold stripChars at h
  rw [List.getLast?_reverse] at h
  exact head_dropWhile_false _ _ _ h

theorem stripChars_eq_self (l : List Char)
    (h1 : ∀ c, l.head? = some c → Char.isWhitespace c = false)
    (h2 : ∀ c, l.getLast? = some c → Char.isWhitespace c = false) :
    stripChars l = l := by
  unfold stripChars
  rw [dropWhile_eq_self_of_head _ _ h1]
  rw [dropWhile_eq_self_of_head _ _ (fun c hc => h2 c (by rwa [List.head?_reverse] at hc))]
  rw [List.reverse_reverse]

theorem underscoreSpace_ne_space (c : Char) : underscoreSpace c ≠ ' ' := by
  unfold underscoreSpace
  split
  · decide
  · assumption

theorem isUpper_underscoreSpace_toLower (c : Char) :
    (underscoreSpace c.toLower).isUpper = false := by
  unfold underscoreSpace
  split
  · decide
  · exact isUpper_toLower c

theorem isWhitespace_underscoreSpace (c : Char) (h : c.isWhitespace = false) :
    (underscoreSpace c).isWhitespace = false := by
  unfold underscoreSpace
  split
  · decide
  · exact h

theorem normChar_fix (c : Char) :
    underscoreSpace (Char.toLower (underscoreSpace (Char.toLower c))) =
      underscoreSpace (Char.toLower c) := by
  set d := Char.toLower c with hd
  have h2 : Char.toLower d = d := by rw [hd]; exact toLower_toLower c
  by_cases hsp : d = ' '
  · rw [hsp]; decide
  · have h1 : underscoreSpace d = d := by unfold underscoreSpace; rw [if_neg hsp]
    rw [h1, h2]
    exact h1

theorem normalizeName_idem (s : String) :
    normalizeName (normalizeName s) = normalizeName s := by
  unfold normalizeName
  set X := stripChars s.data with hX
  have hstrip : stripChars ((X.map Char.toLower).map underscoreSpace) =
      (X.map Char.toLower).map underscoreSpace := by
    apply stripChars_eq_self
    · intro c hc
      rw [List.head?_map, List.head?_map] at hc
      cases hXh : X.head? with
      | none => rw [hXh] at hc; simp at hc
      | some a =>
        rw [hXh] at hc
        simp only [Option.map_some'] at hc
        have : underscoreSpace a.toLower = c := by injection hc
        rw [← this]
        exact isWhitespace_underscoreSpace _ (isWhitespace_toLower _
          (stripChars_head s.data a (hX ▸ hXh)))
    · intro c hc
      rw [List.getLast?_map, List.getLast?_map] at hc
      cases hXh : X.getLast? with
      | none => rw [hXh] at hc; simp at hc
      | some a =>
        rw [hXh] at hc
        simp only [Option.map_some'] at hc
        have : underscoreSpace a.toLower = c := by injection hc
        rw [← this]
        exact isWhitespace_underscoreSpace _ (isWhitespace_toLower _
          (stripChars_getLast s.data a (hX ▸ hXh)))
  show String.mk _ = String.mk _
  have hdata : (String.mk ((X.map Char.toLower).map underscoreSpace)).data =
      (X.map Char.toLower).map underscoreSpace := rfl
  rw [hdata, hstrip]
  congr 1
  simp only [List.map_map]
  have hfun : underscoreSpace ∘ Char.toLower ∘ underscoreSpace ∘ Char.toLower =
      underscoreSpace ∘ Char.toLower := funext (fun c => normChar_fix c)
  rw [hfun]

theorem mem_normalizeName_data (s : String) (ch : Char)
    (h : ch ∈ (normalizeName s).data) : ch ≠ ' ' ∧ ch.isUpper = false := by
  have h' : ch ∈ ((stripChars s.data).map Char.toLower).map underscoreSpace := h
  obtain ⟨d, hd, rfl⟩ := List.mem_map.mp h'
  obtain ⟨e, _, rfl⟩ := List.mem_map.mp hd
  exact ⟨underscoreSpace_ne_space _, isUpper_underscoreSpace_toLower e⟩

theorem mem_of_mem_dedupAux {α : Type} [DecidableEq α] (l : List α) :
    ∀ (seen : List α) (x : α), x ∈ dedupAux seen l → x ∈ l := by
  induction l with
  | nil => intro seen x h; simp [dedupAux] at h
  | cons a t ih =>
    intro seen x h
    rw [dedupAux] at h
    by_cases ha : a ∈ seen
    · rw [if_pos ha] at h
      exact List.mem_cons_of_mem a (ih seen x h)
    · rw [if_neg ha] at h
      rcases List.mem_cons.mp h with rfl | h2
      · exact List.mem_cons_self x t
      · exact List.mem_cons_of_mem a (ih (a :: seen) x h2)

theorem nodup_dedupAux {α : Type} [DecidableEq α] (l : List α) :
    ∀ seen : List α, (dedupAux seen l).Nodup ∧ ∀ x ∈ dedupAux seen l, x ∉ seen := by
  induction l with
  | nil => intro seen; exact ⟨List.nodup_nil, by simp [dedupAux]⟩
  | cons a t ih =>
    intro seen
    rw [dedupAux]
    by_cases ha : a ∈ seen
    · rw [if_pos ha]
      exact ih seen
    · rw [if_neg ha]
      obtain ⟨hnd, hnotin⟩ := ih (a :: seen)
      refine ⟨List.nodup_cons.mpr ⟨?_, hnd⟩, ?_⟩
      · intro hmem
        exact hnotin a hmem (List.mem_cons_self a seen)
      · intro x hx
        rcases List.mem_cons.mp hx with rfl | h2
        · exact ha
        · intro hxs
          exact hnotin x h2 (List.mem_cons_of_mem a hxs)

theorem dedupAux_eq_self {α : Type} [DecidableEq α] (l : List α) :
    ∀ seen : List α, l.Nodup → (∀ x ∈ l, x ∉ seen) → dedupAux seen l = l := by
  induction l with
  | nil => intro seen _ _; rfl
  | cons a t ih =>
    intro seen hnd hdis
    rw [dedupAux, if_neg (hdis a (List.mem_cons_self a t))]
    congr 1
    apply ih
    · exact (List.nodup_cons.mp hnd).2
    · intro x hx
      intro hmem
      rcases List.mem_cons.mp hmem with rfl | h2
      · exact (List.nodup_cons.mp hnd).1 hx
      · exact hdis x (List.mem_cons_of_mem a hx) h2

theorem dedupFirst_nodup {α : Type} [DecidableEq α] (l : List α) : (dedupFirst l).Nodup :=
  (nodup_dedupAux l []).1

theorem mem_of_mem_dedupFirst {α : Type} [DecidableEq α] {l : List α} {x : α}
    (h : x ∈ dedupFirst l) : x ∈ l :=
  mem_of_mem_dedupAux l [] x h

theorem dedupFirst_eq_self {α : Type} [DecidableEq α] (l : List α) (h : l.Nodup) :
    dedupFirst l = l :=
  dedupAux_eq_self l [] h (by simp)

theorem map_eq_self_of_mem {α : Type} (l : List α) (f : α → α)
    (h : ∀ x ∈ l, f x = x) : l.map f = l := by
  induction l with
  | nil => rfl
  | cons a t ih =>
    rw [List.map_cons, h a (List.mem_cons_self a t), ih (fun x hx => h x (List.mem_cons_of_mem a hx))]

theorem toNumericVal_idem (v : Val) : toNumericVal (toNumericVal v) = toNumericVal v := by
  cases v with
  | na => rfl
  | num q => rfl
  | str s =>
    rw [toNumericVal]
    cases hp : parseNum s with
    | none => rfl
    | some q => rfl

theorem coerceRow_idem (cols : List String) : ∀ r : List Val,
    coerceRow cols (coerceRow cols r) = coerceRow cols r := by
  induction cols with
  | nil => intro r; rfl
  | cons c cs ih =>
    intro r
    cases r with
    | nil => rfl
    | cons v vs =>
      show List.zipWith _ (c :: cs) _ = _
      rw [coerceRow, List.zipWith_cons_cons, List.zipWith_cons_cons]
      by_cases hc : c ∈ numericCols
      · rw [if_pos hc, if_pos hc]
        exact congrArg₂ _ (toNumericVal_idem v) (ih vs)
      · rw [if_neg hc, if_neg hc]
        exact congrArg₂ _ rfl (ih vs)

theorem load_data_idem (t : Table) : load_data (load_data t) = load_data t := by
  unfold load_data
  have hcols : (t.cols.map normalizeName).map normalizeName = t.cols.map normalizeName := by
    rw [List.map_map]
    have hfun : normalizeName ∘ normalizeName = normalizeName :=
      funext (fun s => normalizeName_idem s)
    rw [hfun]
  show Table.mk _ _ = Table.mk _ _
  rw [hcols]
  congr 1
  set C := t.cols.map normalizeName with hC
  set R := dedupFirst (t.rows.map (coerceRow C)) with hR
  have hmapR : R.map (coerceRow C) = R := by
    apply map_eq_self_of_mem
    intro row hrow
    obtain ⟨r0, _, rfl⟩ := List.mem_map.mp (mem_of_mem_dedupFirst (hR ▸ hrow))
    exact coerceRow_idem C r0
  rw [hmapR]
  exact dedupFirst_eq_self R (hR ▸ dedupFirst_nodup (t.rows.map (coerceRow C)))

theorem getVal_coerceRow (cols : List String) : ∀ (r : List Val) (c : String),
    getVal cols (coerceRow cols r) c =
      if c ∈ numericCols then toNumericVal (getVal cols r c) else getVal cols r c := by
  induction cols with
  | nil =>
    intro r c
    show Val.na = if c ∈ numericCols then toNumericVal Val.na else Val.na
    split <;> rfl
  | cons c0 cs ih =>
    intro r c
    cases r with
    | nil =>
      show Val.na = if c ∈ numericCols then toNumericVal Val.na else Val.na
      split <;> rfl
    | cons v vs =>
      rw [coerceRow, List.zipWith_cons_cons]
      show getVal (c0 :: cs) (_ :: _) c = _
      rw [getVal, getVal]
      by_cases hc : c0 = c
      · rw [if_pos hc, if_pos hc]
        subst hc
        rfl
      · rw [if_neg hc, if_neg hc]
        exact ih vs c

theorem isStrVal_toNumericVal (v : Val) : isStrVal (toNumericVal v) = false := by
  cases v with
  | na => rfl
  | num q => rfl
  | str s =>
    rw [toNumericVal]
    cases hp : parseNum s with
    | none => rfl
    | some q => rfl

/-- C6: loading is idempotent: applying the loader pipeline again to an
already loaded table changes neither the normalized column names nor the
duplicate-free row count (indeed `load_data` is a fixed point, see
`load_data_idem`). -/
theorem c6_load_idempotent (t : Table) :
    (load_data (load_data t)).cols = (load_data t).cols ∧
    (load_data (load_data t)).rows.length = (load_data t).rows.length := by
  rw [load_data_idem t]
  exact ⟨rfl, rfl⟩

/-- C7: every loaded table has its column names normalized (the image of
`normalizeName`, hence space-free and uppercase-free); every loaded row is
the columnwise coercion of a raw row, so that under each of the three
numeric headers the loaded cell is exactly `toNumericVal` of the raw cell —
in particular a raw string cell becomes the parsed number when `parseNum`
succeeds and missing when it does not; and no two loaded rows are equal. -/
theorem c7_load_invariants (t : Table) :
    (load_data t).cols = t.cols.map normalizeName ∧
    (∀ colName ∈ (load_data t).cols, ∀ ch ∈ colName.data, ch ≠ ' ' ∧ ch.isUpper = false) ∧
    (∀ row ∈ (load_data t).rows, ∃ r0 ∈ t.rows,
      row = coerceRow (t.cols.map normalizeName) r0 ∧
      ∀ c ∈ numericCols,
        getVal (load_data t).cols row c =
          toNumericVal (getVal (load_data t).cols r0 c) ∧
        ∀ s, getVal (load_data t).cols r0 c = Val.str s →
          getVal (load_data t).cols row c =
            (match parseNum s with
             | some q => Val.num q
             | none => Val.na)) ∧
    (load_data t).rows.Nodup := by
  refine ⟨rfl, ?_, ?_, ?_⟩
  · intro colName hcn ch hch
    obtain ⟨s, _, rfl⟩ := List.mem_map.mp (hcn : colName ∈ t.cols.map normalizeName)
    exact mem_normalizeName_data s ch hch
  · intro row hrow
    obtain ⟨r0, hr0, rfl⟩ := List.mem_map.mp
      (mem_of_mem_dedupFirst (hrow : row ∈ dedupFirst (t.rows.map (coerceRow (t.cols.map normalizeName)))))
    refine ⟨r0, hr0, rfl, ?_⟩
    intro c hc
    have h1 : getVal (load_data t).cols (coerceRow (t.cols.map normalizeName) r0) c =
        toNumericVal (getVal (load_data t).cols r0 c) := by
      show getVal (t.cols.map normalizeName) (coerceRow (t.cols.map normalizeName) r0) c =
        toNumericVal (getVal (t.cols.map normalizeName) r0 c)
      rw [getVal_coerceRow, if_pos hc]
    refine ⟨h1, ?_⟩
    intro s hs
    rw [h1, hs]
    rfl
  · exact dedupFirst_nodup _

/-- Witness for C7 at a concrete raw table: the loaded row coming from the
raw row with the unparsable price "abc" carries a missing price. -/
theorem c7_witness :
    ((('p' : Char) ≠ ' ' ∧ ('p' : Char).isUpper = false) ∧
     (∃ r0 ∈ exF.rows,
       [Val.na, Val.num 2016, Val.str "bmw"] = coerceRow (exF.cols.map normalizeName) r0 ∧
       ∀ c ∈ numericCols,
         getVal (load_data exF).cols [Val.na, Val.num 2016, Val.str "bmw"] c =
           toNumericVal (getVal (load_data exF).cols r0 c) ∧
         ∀ s, getVal (load_data exF).cols r0 c = Val.str s →
           getVal (load_data exF).cols [Val.na, Val.num 2016, Val.str "bmw"] c =
             (match parseNum s with
              | some q => Val.num q
              | none => Val.na)) ∧
     (load_data exF).rows.Nodup) :=
  ⟨(c7_load_invariants exF).2.1 "price" (by decide) 'p' (by decide),
   (c7_load_invariants exF).2.2.1 [Val.na, Val.num 2016, Val.str "bmw"] (by decide),
   (c7_load_invariants exF).2.2.2⟩

theorem foldMax?_spec {α : Type} [LinearOrder α] (l : List α) (hne : l ≠ []) :
    ∃ M, foldMax? l = some M ∧ M ∈ l ∧ ∀ x ∈ l, x ≤ M := by
  induction l with
  | nil => exact absurd rfl hne
  | cons a t ih =>
    cases t with
    | nil =>
      refine ⟨a, rfl, List.mem_singleton_self a, ?_⟩
      intro x hx
      rw [List.mem_singleton.mp hx]
    | cons b u =>
      obtain ⟨M, hM, hmem, hub⟩ := ih (by simp)
      refine ⟨max a M, ?_, ?_, ?_⟩
      · rw [foldMax?, hM]
      · rcases max_cases a M with ⟨he, _⟩ | ⟨he, _⟩
        · rw [he]; exact List.mem_cons_self _ _
        · rw [he]; exact List.mem_cons_of_mem a hmem
      · intro x hx
        rcases List.mem_cons.mp hx with rfl | h2
        · exact le_max_left _ _
        · exact le_trans (hub x h2) (le_max_right _ _)

theorem foldMax?_map_min (l : List ℚ) (q : ℚ) :
    foldMax? (l.map (fun v => min v q)) = (foldMax? l).map (fun m => min m q) := by
  induction l with
  | nil => rfl
  | cons a t ih =>
    rw [List.map_cons, foldMax?, ih, foldMax?]
    cases foldMax? t with
    | none => rfl
    | some m =>
      simp only [Option.map_some']
      rw [← min_max_distrib_right]

theorem quantile99_eq_none_iff (l : List ℚ) : quantile99 l = none ↔ l = [] := by
  unfold quantile99
  have hlen : (List.insertionSort (· ≤ ·) l).length = l.length :=
    (List.perm_insertionSort _ l).length_eq
  constructor
  · intro h
    by_cases he : (List.insertionSort (· ≤ ·) l).isEmpty
    · have : (List.insertionSort (· ≤ ·) l).length = 0 := by
        rwa [List.isEmpty_iff_length_eq_zero] at he
      rw [hlen] at this
      exact List.length_eq_zero.mp this
    · rw [if_neg (by simpa using he)] at h
      simp at h
  · intro h
    subst h
    rfl

theorem list_getD_eq_getElem {α : Type} (l : List α) (n : ℕ) (d : α) (h : n < l.length) :
    l.getD n d = l[n] := by
  rw [List.getD_eq_getElem?_getD, List.getElem?_eq_getElem h]
  rfl

theorem list_getD_eq_default {α : Type} (l : List α) (n : ℕ) (d : α) (h : l.length ≤ n) :
    l.getD n d = d := by
  rw [List.getD_eq_getElem?_getD, List.getElem?_eq_none h]
  rfl

theorem quantile99_le_ub (l : List ℚ) (Q M : ℚ) (hQ : quantile99 l = some Q)
    (hub : ∀ x ∈ l, x ≤ M) : Q ≤ M := by
  unfold quantile99 at hQ
  set s := List.insertionSort (· ≤ ·) l with hs
  by_cases he : s.isEmpty
  · rw [if_pos he] at hQ; simp at hQ
  rw [if_neg he] at hQ
  have hsub : ∀ x ∈ s, x ≤ M := by
    intro x hx
    exact hub x ((List.perm_insertionSort _ l).mem_iff.mp hx)
  have hsorted : s.Sorted (· ≤ ·) := List.sorted_insertionSort _ l
  have hlen0 : 0 < s.length :=
    List.length_pos.mpr (by simpa [List.isEmpty_iff] using he)
  set n := s.length with hn
  set h : ℚ := ((n - 1 : ℕ) : ℚ) * (99 / 100) with hh
  have h0 : 0 ≤ h := by positivity
  have hfl0 : 0 ≤ ⌊h⌋ := Int.floor_nonneg.mpr h0
  set i : ℕ := (⌊h⌋).toNat with hi
  have hic : (i : ℚ) = (⌊h⌋ : ℚ) := by
    rw [hi]
    exact_mod_cast Int.toNat_of_nonneg hfl0
  have hgle : (i : ℚ) ≤ h := by rw [hic]; exact Int.floor_le h
  have hglt : h - (i : ℚ) < 1 := by
    rw [hic]
    have := Int.lt_floor_add_one h
    linarith
  have hhle : h ≤ ((n - 1 : ℕ) : ℚ) := by
    rw [hh]
    nlinarith [Nat.cast_nonneg (α := ℚ) (n - 1)]
  have hile : i ≤ n - 1 := by
    have : (⌊h⌋ : ℤ) ≤ (n - 1 : ℕ) := by
      have := Int.floor_le_floor hhle
      rwa [Int.floor_natCast] at this
    omega
  have hiltn : i < n := by omega
  -- the two interpolation points
  set xi := s.getD i 0 with hxi
  set xi1 := s.getD (i + 1) xi with hxi1
  have hiltn2 : i < s.length := by omega
  have hximem : xi ∈ s := by
    rw [hxi, list_getD_eq_getElem s i 0 hiltn2]
    exact List.getElem_mem _
  have hxile : xi ≤ xi1 := by
    by_cases hlt : i + 1 < s.length
    · rw [hxi1, list_getD_eq_getElem s (i + 1) xi hlt, hxi, list_getD_eq_getElem s i 0 hiltn2]
      have hrel := List.Sorted.rel_get_of_lt hsorted
        (a := ⟨i, hiltn2⟩) (b := ⟨i + 1, hlt⟩) (by simp [Fin.lt_def])
      simpa using hrel
    · rw [hxi1, list_getD_eq_default s (i + 1) xi (by omega)]
  have hxi1le : xi1 ≤ M := by
    by_cases hlt : i + 1 < s.length
    · rw [hxi1, list_getD_eq_getElem s (i + 1) xi hlt]
      exact hsub _ (List.getElem_mem _)
    · rw [hxi1, list_getD_eq_default s (i + 1) xi (by omega)]
      exact hsub _ hximem
  have hQval : Q = xi + (h - (i : ℚ)) * (xi1 - xi) := by
    injection hQ.symm
  nlinarith [hQval, hxile, hxi1le, hgle, hglt]

theorem clippedMax_eq_quantile99 (l : List ℚ) : clippedMax l = quantile99 l := by
  unfold clippedMax
  cases hq : quantile99 l with
  | none =>
    rw [(quantile99_eq_none_iff l).mp hq]
    rfl
  | some Q =>
    have hne : l ≠ [] := by
      intro h
      rw [h] at hq
      simp [quantile99, List.insertionSort] at hq
    obtain ⟨M, hM, _, hub⟩ := foldMax?_spec l hne
    show foldMax? (l.map (fun v => min v Q)) = some Q
    rw [foldMax?_map_min, hM]
    simp only [Option.map_some']
    rw [min_eq_right (quantile99_le_ub l Q M hq hub)]

/-- C8: for a listing table with price and odometer columns, the upper
bound of each numeric slider (the clipped maximum of app.py lines 52 and
55) equals the column's 99th percentile, and the lower bound is the
observed minimum. -/
theorem c8_slider_bounds (t : Table)
    (_hp : "price" ∈ t.cols) (_ho : "odometer" ∈ t.cols) :
    max_price t = quantile99 (numsOf (colVals t "price")) ∧
    min_price t = foldMin? (numsOf (colVals t "price")) ∧
    max_odo t = quantile99 (numsOf (colVals t "odometer")) ∧
    min_odo t = foldMin? (numsOf (colVals t "odometer")) :=
  ⟨clippedMax_eq_quantile99 _, rfl, clippedMax_eq_quantile99 _, rfl⟩

/-- Witness for C8 at a concrete table. -/
theorem c8_witness :
    ("price" ∈ exA.cols ∧ "odometer" ∈ exA.cols) ∧
    max_price exA = quantile99 (numsOf (colVals exA "price")) ∧
    min_price exA = foldMin? (numsOf (colVals exA "price")) :=
  ⟨⟨by decide, by decide⟩,
   (c8_slider_bounds exA (by decide) (by decide)).1,
   (c8_slider_bounds exA (by decide) (by decide)).2.1⟩

theorem mem_dedupAux_of_mem {α : Type} [DecidableEq α] (l : List α) :
    ∀ (seen : List α) (x : α), x ∈ l → x ∈ dedupAux seen l ∨ x ∈ seen := by
  induction l with
  | nil => intro seen x h; simp at h
  | cons a t ih =>
    intro seen x h
    rw [dedupAux]
    by_cases ha : a ∈ seen
    · rw [if_pos ha]
      rcases List.mem_cons.mp h with rfl | h2
      · exact Or.inr ha
      · exact ih seen x h2
    · rw [if_neg ha]
      rcases List.mem_cons.mp h with rfl | h2
      · exact Or.inl (List.mem_cons_self x _)
      · rcases ih (a :: seen) x h2 with h3 | h3
        · exact Or.inl (List.mem_cons_of_mem a h3)
        · rcases List.mem_cons.mp h3 with rfl | h4
          · exact Or.inl (List.mem_cons_self x _)
          · exact Or.inr h4

theorem mem_dedupFirst_of_mem {α : Type} [DecidableEq α] {l : List α} {x : α}
    (h : x ∈ l) : x ∈ dedupFirst l := by
  rcases mem_dedupAux_of_mem l [] x h with h2 | h2
  · exact h2
  · simp at h2

theorem mem_availableVals (t : Table) (c : String) (v : Val) :
    v ∈ availableVals t c ↔ v ∈ colVals t c ∧ v ≠ Val.na := by
  unfold availableVals
  rw [(List.perm_insertionSort valLeP _).mem_iff]
  constructor
  · intro h
    have h2 := mem_of_mem_dedupFirst h
    simpa [dropNa, List.mem_filter] using h2
  · intro hv
    apply mem_dedupFirst_of_mem
    simpa [dropNa, List.mem_filter] using hv

theorem rows_manuFilter (sel : List Val) (t : Table) :
    (manuFilter sel t).rows =
      t.rows.filter (fun r => sel.isEmpty || decide (getVal t.cols r "manufacturer" ∈ sel)) := by
  unfold manuFilter
  by_cases h : sel.isEmpty
  · rw [if_pos h]
    simp [h]
  · rw [if_neg h]
    have hf : sel.isEmpty = false := by simpa using h
    simp [hf]

theorem rows_typeFilter (sel : List Val) (t : Table) :
    (typeFilter sel t).rows =
      t.rows.filter (fun r => sel.isEmpty || decide (getVal t.cols r "type" ∈ sel)) := by
  unfold typeFilter
  by_cases h : sel.isEmpty
  · rw [if_pos h]
    simp [h]
  · rw [if_neg h]
    have hf : sel.isEmpty = false := by simpa using h
    simp [hf]

theorem rows_rangeFilter (plo phi olo ohi : ℚ) (t : Table) :
    (rangeFilter plo phi olo ohi t).rows =
      t.rows.filter (fun r =>
        betweenVal (getVal t.cols r "price") plo phi &&
        betweenVal (getVal t.cols r "odometer") olo ohi) := rfl

theorem rows_yearFilter (ylo yhi : ℚ) (t : Table) :
    (yearFilter ylo yhi t).rows =
      t.rows.filter (fun r =>
        !(decide ("model_year" ∈ t.cols)) ||
          betweenVal (getVal t.cols r "model_year") ylo yhi) := by
  unfold yearFilter
  by_cases h : "model_year" ∈ t.cols
  · rw [if_pos h]
    simp [h]
  · rw [if_neg h]
    simp [h]

/-- C4 counterexample: in `exD`, selecting the full option sets (the single
available manufacturer and type) yields one row, while the range- and
year-only restriction keeps both rows: the `isin` mask drops the row whose
manufacturer is missing even under a full selection. -/
theorem c4_counterexample :
    ¬ ((filteredView (availableVals exD "manufacturer") (availableVals exD "type")
          5000 6000 1000 2000 2015 2016 exD).rows.length =
        (yearFilter 2015 2016 (rangeFilter 5000 6000 1000 2000 exD)).rows.length) := by
  decide

theorem bool_shuffle4 (a b c d : Bool) : (a && b && c && d) = (d && c && a && b) := by
  cases a <;> cases b <;> cases c <;> cases d <;> rfl

/-- C4 amended: selecting the full option sets yields a filtered view whose
row count equals the count of range- and year-filtered rows that, whenever
the corresponding option set is nonempty, additionally have a non-missing
manufacturer (resp. type) value. -/
theorem c4_full_selection_counts (t : Table) (plo phi olo ohi ylo yhi : ℚ) :
    (filteredView (availableVals t "manufacturer") (availableVals t "type")
        plo phi olo ohi ylo yhi t).rows.length =
      ((yearFilter ylo yhi (rangeFilter plo phi olo ohi t)).rows.filter (fun r =>
        ((availableVals t "manufacturer").isEmpty ||
          !(getVal t.cols r "manufacturer" == Val.na)) &&
        ((availableVals t "type").isEmpty ||
          !(getVal t.cols r "type" == Val.na)))).length := by
  set M := availableVals t "manufacturer" with hM
  set T := availableVals t "type" with hT
  -- both sides as single filters over t.rows
  have hL : (filteredView M T plo phi olo ohi ylo yhi t).rows =
      t.rows.filter (fun r =>
        (!(decide ("model_year" ∈ t.cols)) ||
          betweenVal (getVal t.cols r "model_year") ylo yhi) &&
        (betweenVal (getVal t.cols r "price") plo phi &&
          betweenVal (getVal t.cols r "odometer") olo ohi) &&
        (T.isEmpty || decide (getVal t.cols r "type" ∈ T)) &&
        (M.isEmpty || decide (getVal t.cols r "manufacturer" ∈ M))) := by
    unfold filteredView
    rw [rows_yearFilter]
    rw [cols_rangeFilter, cols_typeFilter, cols_manuFilter]
    rw [rows_rangeFilter]
    rw [cols_typeFilter, cols_manuFilter]
    rw [rows_typeFilter]
    rw [cols_manuFilter]
    rw [rows_manuFilter]
    rw [List.filter_filter, List.filter_filter, List.filter_filter]
  have hR : (yearFilter ylo yhi (rangeFilter plo phi olo ohi t)).rows.filter (fun r =>
        (M.isEmpty || !(getVal t.cols r "manufacturer" == Val.na)) &&
        (T.isEmpty || !(getVal t.cols r "type" == Val.na))) =
      t.rows.filter (fun r =>
        (M.isEmpty || !(getVal t.cols r "manufacturer" == Val.na)) &&
        (T.isEmpty || !(getVal t.cols r "type" == Val.na)) &&
        (!(decide ("model_year" ∈ t.cols)) ||
           betweenVal (getVal t.cols r "model_year") ylo yhi) &&
        (betweenVal (getVal t.cols r "price") plo phi &&
          betweenVal (getVal t.cols r "odometer") olo ohi)) := by
    rw [rows_yearFilter]
    rw [cols_rangeFilter]
    rw [rows_rangeFilter]
    rw [List.filter_filter, List.filter_filter]
  rw [hL, hR]
  congr 1
  apply List.filter_congr
  intro r hr
  -- the categorical membership tests coincide with non-missingness
  have hman : decide (getVal t.cols r "manufacturer" ∈ M) =
      !(getVal t.cols r "manufacturer" == Val.na) := by
    by_cases hv : getVal t.cols r "manufacturer" = Val.na
    · rw [hv]
      have : Val.na ∉ M := fun hmem => ((mem_availableVals t _ _).mp (hM ▸ hmem)).2 rfl
      simp [this]
    · have hmem : getVal t.cols r "manufacturer" ∈ M := by
        rw [hM]
        exact (mem_availableVals t _ _).mpr ⟨List.mem_map_of_mem _ hr, hv⟩
      simp [hmem, hv]
  have htyp : decide (getVal t.cols r "type" ∈ T) =
      !(getVal t.cols r "type" == Val.na) := by
    by_cases hv : getVal t.cols r "type" = Val.na
    · rw [hv]
      have : Val.na ∉ T := fun hmem => ((mem_availableVals t _ _).mp (hT ▸ hmem)).2 rfl
      simp [this]
    · have hmem : getVal t.cols r "type" ∈ T := by
        rw [hT]
        exact (mem_availableVals t _ _).mpr ⟨List.mem_map_of_mem _ hr, hv⟩
      simp [hmem, hv]
  rw [hman, htyp]
  exact bool_shuffle4 _ _ _ _

theorem splitOnChar_ne_nil (sep : Char) (cs : List Char) : splitOnChar sep cs ≠ [] := by
  cases cs with
  | nil => simp [splitOnChar]
  | cons c t =>
    rw [splitOnChar]
    cases hs : splitOnChar sep t with
    | nil => simp
    | cons a u =>
      show (if c = sep then [] :: a :: u else (c :: a) :: u) ≠ []
      by_cases hc : c = sep
      · rw [if_pos hc]; simp
      · rw [if_neg hc]; simp

theorem splitOnChar_append_cons (sep : Char) (a bs : List Char)
    (h : ∀ c ∈ a, c ≠ sep) : splitOnChar sep (a ++ sep :: bs) = a :: splitOnChar sep bs := by
  induction a with
  | nil =>
    show splitOnChar sep (sep :: bs) = [] :: splitOnChar sep bs
    rw [splitOnChar]
    cases hs : splitOnChar sep bs with
    | nil => exact absurd hs (splitOnChar_ne_nil sep bs)
    | cons x u =>
      show (if sep = sep then [] :: x :: u else (sep :: x) :: u) = [] :: x :: u
      rw [if_pos rfl]
  | cons c t ih =>
    have hc : c ≠ sep := h c (List.mem_cons_self c t)
    have ht : ∀ x ∈ t, x ≠ sep := fun x hx => h x (List.mem_cons_of_mem c hx)
    show splitOnChar sep (c :: (t ++ sep :: bs)) = (c :: t) :: splitOnChar sep bs
    rw [splitOnChar, ih ht]
    show (if c = sep then [] :: t :: splitOnChar sep bs
          else (c :: t) :: splitOnChar sep bs) = (c :: t) :: splitOnChar sep bs
    rw [if_neg hc]

theorem splitOnChar_no_sep (sep : Char) (p : List Char)
    (h : ∀ c ∈ p, c ≠ sep) : splitOnChar sep p = [p] := by
  induction p with
  | nil => rfl
  | cons c t ih =>
    have hc : c ≠ sep := h c (List.mem_cons_self c t)
    have ht : ∀ x ∈ t, x ≠ sep := fun x hx => h x (List.mem_cons_of_mem c hx)
    rw [splitOnChar, ih ht]
    show (if c = sep then [] :: t :: [] else (c :: t) :: []) = [c :: t]
    rw [if_neg hc]

theorem splitOnChar_joinSepC (sep : Char) (parts : List (List Char))
    (hne : parts ≠ []) (h : ∀ p ∈ parts, ∀ c ∈ p, c ≠ sep) :
    splitOnChar sep (joinSepC sep parts) = parts := by
  induction parts with
  | nil => exact absurd rfl hne
  | cons p ps ih =>
    cases ps with
    | nil =>
      show splitOnChar sep p = [p]
      exact splitOnChar_no_sep sep p (h p (List.mem_cons_self p []))
    | cons q rs =>
      show splitOnChar sep (p ++ sep :: joinSepC sep (q :: rs)) = p :: q :: rs
      rw [splitOnChar_append_cons sep p _ (h p (List.mem_cons_self p _))]
      rw [ih (by simp) (fun x hx c hc => h x (List.mem_cons_of_mem p hx) c hc)]

theorem escapeField_id (cs : List Char)
    (h : ∀ ch ∈ cs, ch ≠ ',' ∧ ch ≠ quoteChar ∧ ch ≠ '\n') : escapeField cs = cs := by
  unfold escapeField
  rw [if_neg]
  intro hany
  obtain ⟨x, hx, hor⟩ := List.any_eq_true.mp hany
  obtain ⟨h1, h2, h3⟩ := h x hx
  simp [h1, h2, h3] at hor

theorem consHead_ne_nil (c : Char) (l : List (List Char)) : consHead c l ≠ [] := by
  cases l <;> simp [consHead]

theorem splitQAux_ne_nil (sep : Char) (inQ : Bool) (cs : List Char) :
    splitQAux sep inQ cs ≠ [] := by
  cases cs with
  | nil => simp [splitQAux]
  | cons c t =>
    rw [splitQAux]
    split
    · exact consHead_ne_nil _ _
    · split
      · split
        · exact consHead_ne_nil _ _
        · simp
      · exact consHead_ne_nil _ _

end UsedCars
